import Mathlib

/-!
# Verification of the kmailight line classifier, span builder and chunk selector

A shallow embedding of the core of the `kmailight` repository:

* `src/parser/line.rs` — `quoting_layer`, `extract_file_path`, `detect_language`,
  `match_code_kind` and `Line::parse_lines` (the per-quoting-layer state machine);
* `src/parser/span.rs` — `Span` and `build_spans`;
* `src/chunk_collector.rs` — `ChunkCollector::merge_adjacent`;
* `src/heuristics.rs` — `Heuristics::filter_children` / `filter_identifier_blocks`
  and `current_node_valid`.

Rust strings are embedded as `List Char`; `usize` arithmetic never overflows in
this code path for realistic inputs and is embedded as `Nat`.  Rust's
`str::lines` iterator is embedded as `rustLines` (split on `'\n'`, final
terminator optional, one trailing `'\r'` stripped per line).
-/

namespace Kmailight

/-- ASCII whitespace test used to embed Rust's `char::is_whitespace` /
`split_whitespace` / `trim_start` on the ASCII inputs this program handles
(the Unicode-only whitespace code points are irrelevant to every claim). -/
def rustIsWs (c : Char) : Bool :=
  c == ' ' || c == '\t' || c == '\n' || c == '\r' ||
  c == '\x0b' || c == '\x0c'

/-- From `src/parser/line.rs`, `fn quoting_layer` inner loop: scan characters,
counting `'>'` while `seen_non_ws` is still false; `' '`/`'\t'` `continue`
without touching `seen_non_ws`; any other character breaks; after a counted
`'>'` the flag `seen_non_ws` is set. -/
def quotingLayerAux : List Char → Nat → Bool → Nat
  | [], count, _ => count
  | c :: rest, count, seen =>
    if c = '>' then
      if seen then count else quotingLayerAux rest (count + 1) true
    else if c = ' ' ∨ c = '\t' then
      quotingLayerAux rest count seen
    else
      count

/-- From `src/parser/line.rs`, `fn quoting_layer`. -/
def quoting_layer (line : List Char) : Nat :=
  quotingLayerAux line 0 false

theorem quotingLayerAux_seen_eq_one (l : List Char) :
    quotingLayerAux l 1 true = 1 := by
  induction l with
  | nil => rfl
  | cons c rest ih =>
    simp only [quotingLayerAux]
    split
    · rfl
    · split
      · exact ih
      · rfl

/-- The first character of `l` that is neither a space nor a tab. -/
def firstNonSpaceTab (l : List Char) : Option Char :=
  (l.dropWhile (fun c => c == ' ' || c == '\t')).head?

/-- Claim C10: `quoting_layer` never returns a value greater than 1, and it
returns 1 exactly when the first non-space, non-tab character of the line is
`'>'` (0 otherwise); additional `'>'` markers after the first never increase
the returned depth. -/
theorem quoting_layer_le_one (l : List Char) :
    quoting_layer l ≤ 1 ∧
      (quoting_layer l = 1 ↔ firstNonSpaceTab l = some '>') := by
  induction l with
  | nil => simp [quoting_layer, quotingLayerAux, firstNonSpaceTab]
  | cons c rest ih =>
    by_cases hgt : c = '>'
    · subst hgt
      simp [quoting_layer, quotingLayerAux, firstNonSpaceTab,
        quotingLayerAux_seen_eq_one]
    · by_cases hws : c = ' ' ∨ c = '\t'
      · have hd : (fun c => c == ' ' || c == '\t') c = true := by
          rcases hws with h | h <;> simp [h]
        constructor
        · simpa [quoting_layer, quotingLayerAux, hgt, hws] using ih.1
        · rw [show quoting_layer (c :: rest) = quoting_layer rest by
            simp [quoting_layer, quotingLayerAux, hgt, hws]]
          rw [show firstNonSpaceTab (c :: rest) = firstNonSpaceTab rest by
            simp [firstNonSpaceTab, List.dropWhile, hd]]
          exact ih.2
      · have hd : (fun c => c == ' ' || c == '\t') c = false := by
          push_neg at hws
          simp [hws.1, hws.2]
        constructor
        · simp [quoting_layer, quotingLayerAux, hgt, hws]
        · rw [show quoting_layer (c :: rest) = 0 by
            simp [quoting_layer, quotingLayerAux, hgt, hws]]
          rw [show firstNonSpaceTab (c :: rest) = some c by
            simp [firstNonSpaceTab, List.dropWhile, hd]]
          simp [hgt]

/-! ## `src/chunk_collector.rs` — `ChunkCollector::merge_adjacent` -/

/-- Stable insertion of a chunk into an already-sorted accumulator: the new
chunk goes after every chunk whose start is `≤` its own.  Together with
`sortByStart` this embeds Rust's stable `sort_by_key(|&(start, _)| start)`
(two stable sorts by the same key agree on every input). -/
def insertChunk (x : Nat × Nat) : List (Nat × Nat) → List (Nat × Nat)
  | [] => [x]
  | y :: ys => if y.1 ≤ x.1 then y :: insertChunk x ys else x :: y :: ys

/-- Stable sort of chunks by start offset (`spans.sort_by_key(|&(start, _)| start)`). -/
def sortByStart (l : List (Nat × Nat)) : List (Nat × Nat) :=
  l.foldl (fun acc x => insertChunk x acc) []

/-- The scan loop of `ChunkCollector::merge_adjacent`: `current` is the running
chunk; a chunk whose start is within one byte of `current`'s end
(`start <= current.1 + 1`) extends `current`'s end to the max of the two ends,
any other chunk closes `current` and starts a new running chunk. -/
def mergeAdjacentAux : Nat × Nat → List (Nat × Nat) → List (Nat × Nat)
  | current, [] => [current]
  | current, (s, e) :: rest =>
    if s ≤ current.2 + 1 then
      mergeAdjacentAux (current.1, max current.2 e) rest
    else
      current :: mergeAdjacentAux (s, e) rest

/-- From `src/chunk_collector.rs`, `ChunkCollector::merge_adjacent`: early
return on empty input, otherwise sort by start and run the merging scan from
the first chunk. -/
def merge_adjacent (spans : List (Nat × Nat)) : List (Nat × Nat) :=
  match sortByStart spans with
  | [] => []
  | first :: rest => mergeAdjacentAux first rest

/-- Start-offset order on chunks. -/
def startLE (a b : Nat × Nat) : Prop := a.1 ≤ b.1

/-- Separation of consecutive output chunks: the next chunk starts strictly
beyond one byte past the previous chunk's end. -/
def gapGT (a b : Nat × Nat) : Prop := a.2 + 1 < b.1

theorem mem_insertChunk {x y : Nat × Nat} {l : List (Nat × Nat)} :
    y ∈ insertChunk x l ↔ y = x ∨ y ∈ l := by
  induction l with
  | nil => simp [insertChunk]
  | cons z zs ih =>
    simp only [insertChunk]
    split
    · simp only [List.mem_cons, ih]
      tauto
    · simp only [List.mem_cons]

theorem mem_sortByStart {y : Nat × Nat} {l : List (Nat × Nat)} :
    y ∈ sortByStart l ↔ y ∈ l := by
  suffices h : ∀ acc, y ∈ l.foldl (fun acc x => insertChunk x acc) acc ↔
      y ∈ l ∨ y ∈ acc by
    simpa using h []
  induction l with
  | nil => simp
  | cons x xs ih =>
    intro acc
    simp only [List.foldl_cons, ih, mem_insertChunk, List.mem_cons]
    tauto

theorem pairwise_insertChunk {x : Nat × Nat} {l : List (Nat × Nat)}
    (h : l.Pairwise startLE) : (insertChunk x l).Pairwise startLE := by
  induction l with
  | nil => simp [insertChunk]
  | cons z zs ih =>
    simp only [insertChunk]
    rcases List.pairwise_cons.mp h with ⟨hz, hzs⟩
    split
    · refine List.pairwise_cons.mpr ⟨?_, ih hzs⟩
      intro a ha
      rcases mem_insertChunk.mp ha with rfl | ha
      · assumption
      · exact hz a ha
    · refine List.pairwise_cons.mpr ⟨?_, h⟩
      intro a ha
      rcases List.mem_cons.mp ha with rfl | ha
      · exact le_of_not_le (by assumption)
      · exact le_trans (le_of_not_le (by assumption)) (hz a ha)

theorem pairwise_sortByStart (l : List (Nat × Nat)) :
    (sortByStart l).Pairwise startLE := by
  suffices h : ∀ acc, acc.Pairwise startLE →
      (l.foldl (fun acc x => insertChunk x acc) acc).Pairwise startLE by
    exact h [] (by simp)
  induction l with
  | nil => intro acc hacc; simpa using hacc
  | cons x xs ih =>
    intro acc hacc
    exact ih _ (pairwise_insertChunk hacc)

theorem mergeAdjacentAux_ne_nil (current : Nat × Nat) (rest : List (Nat × Nat)) :
    mergeAdjacentAux current rest ≠ [] := by
  induction rest generalizing current with
  | nil => simp [mergeAdjacentAux]
  | cons p ps ih =>
    obtain ⟨s, e⟩ := p
    simp only [mergeAdjacentAux]
    split
    · exact ih _
    · simp

theorem mergeAdjacentAux_head_start (current : Nat × Nat)
    (rest : List (Nat × Nat)) :
    (mergeAdjacentAux current rest).head?.map Prod.fst = some current.1 := by
  induction rest generalizing current with
  | nil => simp [mergeAdjacentAux]
  | cons p ps ih =>
    obtain ⟨s, e⟩ := p
    simp only [mergeAdjacentAux]
    split
    · exact ih _
    · simp

theorem mergeAdjacentAux_head_end (current : Nat × Nat)
    (rest : List (Nat × Nat)) :
    ∃ e, (mergeAdjacentAux current rest).head? = some (current.1, e) ∧
      current.2 ≤ e := by
  induction rest generalizing current with
  | nil => exact ⟨current.2, by simp [mergeAdjacentAux], le_refl _⟩
  | cons p ps ih =>
    obtain ⟨s, e⟩ := p
    simp only [mergeAdjacentAux]
    split
    · obtain ⟨e', he', hle⟩ := ih (current.1, max current.2 e)
      exact ⟨e', he', le_trans (le_max_left _ _) hle⟩
    · exact ⟨current.2, by simp, le_refl _⟩

theorem mergeAdjacentAux_chain_startLE (current : Nat × Nat)
    (rest : List (Nat × Nat))
    (h : (current :: rest).Pairwise startLE) :
    (mergeAdjacentAux current rest).Chain' startLE := by
  induction rest generalizing current with
  | nil => simp [mergeAdjacentAux]
  | cons p ps ih =>
    obtain ⟨s, e⟩ := p
    rcases List.pairwise_cons.mp h with ⟨hcur, htail⟩
    rcases List.pairwise_cons.mp htail with ⟨hse, hps⟩
    simp only [mergeAdjacentAux]
    split
    · refine ih (current.1, max current.2 e) (List.pairwise_cons.mpr ⟨?_, hps⟩)
      intro a ha
      exact le_trans (hcur _ (List.mem_cons_self _ _)) (hse a ha)
    · have hchain := ih (s, e) htail
      rcases hh : mergeAdjacentAux (s, e) ps with _ | ⟨q, qs⟩
      · exact absurd hh (mergeAdjacentAux_ne_nil _ _)
      · rw [hh] at hchain
        refine List.chain'_cons.mpr ⟨?_, hchain⟩
        have := mergeAdjacentAux_head_start (s, e) ps
        rw [hh] at this
        simp only [List.head?_cons, Option.map_some] at this
        have hq : q.1 = s := Option.some.inj this
        unfold startLE
        rw [hq]
        exact hcur _ (List.mem_cons_self _ _)

theorem mergeAdjacentAux_chain_gapGT (current : Nat × Nat)
    (rest : List (Nat × Nat))
    (h : (current :: rest).Pairwise startLE) :
    (mergeAdjacentAux current rest).Chain' gapGT := by
  induction rest generalizing current with
  | nil => simp [mergeAdjacentAux]
  | cons p ps ih =>
    obtain ⟨s, e⟩ := p
    rcases List.pairwise_cons.mp h with ⟨hcur, htail⟩
    rcases List.pairwise_cons.mp htail with ⟨hse, hps⟩
    simp only [mergeAdjacentAux]
    split
    · refine ih (current.1, max current.2 e) (List.pairwise_cons.mpr ⟨?_, hps⟩)
      intro a ha
      exact le_trans (hcur _ (List.mem_cons_self _ _)) (hse a ha)
    · have hchain := ih (s, e) htail
      rcases hh : mergeAdjacentAux (s, e) ps with _ | ⟨q, qs⟩
      · exact absurd hh (mergeAdjacentAux_ne_nil _ _)
      · rw [hh] at hchain
        refine List.chain'_cons.mpr ⟨?_, hchain⟩
        have := mergeAdjacentAux_head_start (s, e) ps
        rw [hh] at this
        simp only [List.head?_cons, Option.map_some] at this
        have hq : q.1 = s := Option.some.inj this
        unfold gapGT
        rw [hq]
        omega

theorem mergeAdjacentAux_pair_cover :
    ∀ (rest : List (Nat × Nat)) (current a b : Nat × Nat),
      (current :: rest).Pairwise startLE →
      a ∈ current :: rest → b ∈ current :: rest →
      a.1 ≤ b.1 → b.1 ≤ a.2 + 1 →
      ∃ c ∈ mergeAdjacentAux current rest,
        c.1 ≤ a.1 ∧ c.1 ≤ b.1 ∧ a.2 ≤ c.2 ∧ b.2 ≤ c.2 := by
  intro rest
  induction rest with
  | nil =>
    intro current a b _ ha hb _ _
    simp only [List.mem_singleton] at ha hb
    refine ⟨current, by simp [mergeAdjacentAux], ?_, ?_, ?_, ?_⟩ <;>
      simp [ha, hb]
  | cons p ps ih =>
    intro current a b h ha hb hab hgap
    obtain ⟨s, e⟩ := p
    rcases List.pairwise_cons.mp h with ⟨hcur, htail⟩
    rcases List.pairwise_cons.mp htail with ⟨hse, hps⟩
    have hcs : current.1 ≤ s := hcur _ (List.mem_cons_self _ _)
    simp only [mergeAdjacentAux]
    split
    case isTrue hm =>
      set m : Nat × Nat := (current.1, max current.2 e) with hm_def
      have hm1 : m.1 = current.1 := rfl
      have hm2 : m.2 = max current.2 e := rfl
      have hpair : (m :: ps).Pairwise startLE := by
        refine List.pairwise_cons.mpr ⟨?_, hps⟩
        intro x hx
        exact hcur _ (List.mem_cons_of_mem _ hx)
      have hmem_m : m ∈ m :: ps := List.mem_cons_self _ _
      rcases List.mem_cons.mp ha with rfl | ha'
      · -- a is the running chunk
        rcases List.mem_cons.mp hb with rfl | hb'
        · -- b is the running chunk as well
          obtain ⟨c, hc, h1, h2, h3, h4⟩ := ih m m m hpair hmem_m hmem_m
            (le_refl _) (by omega)
          exact ⟨c, hc, by omega, by omega, by omega, by omega⟩
        rcases List.mem_cons.mp hb' with rfl | hb''
        · -- b is the head chunk (s, e)
          obtain ⟨c, hc, h1, h2, h3, h4⟩ := ih m m m hpair hmem_m hmem_m
            (le_refl _) (by omega)
          exact ⟨c, hc, by omega, by omega, by omega, by omega⟩
        · -- b lies further down
          have hsb : s ≤ b.1 := hse _ hb''
          obtain ⟨c, hc, h1, h2, h3, h4⟩ := ih m m b hpair hmem_m
            (List.mem_cons_of_mem _ hb'')
            (hcur _ (List.mem_cons_of_mem _ hb'')) (by omega)
          exact ⟨c, hc, by omega, by omega, by omega, by omega⟩
      rcases List.mem_cons.mp ha' with rfl | ha''
      · -- a is the head chunk (s, e); note a.1 = s, a.2 = e
        rcases List.mem_cons.mp hb with rfl | hb'
        · -- b is the running chunk
          obtain ⟨c, hc, h1, h2, h3, h4⟩ := ih m m m hpair hmem_m hmem_m
            (le_refl _) (by simp only [hm1, hm2] at *; omega)
          exact ⟨c, hc, by simp only [hm1, hm2] at *; omega,
            by simp only [hm1, hm2] at *; omega,
            by simp only [hm1, hm2] at *; omega,
            by simp only [hm1, hm2] at *; omega⟩
        rcases List.mem_cons.mp hb' with rfl | hb''
        · -- b is the head chunk as well
          obtain ⟨c, hc, h1, h2, h3, h4⟩ := ih m m m hpair hmem_m hmem_m
            (le_refl _) (by simp only [hm1, hm2] at *; omega)
          exact ⟨c, hc, by simp only [hm1, hm2] at *; omega,
            by simp only [hm1, hm2] at *; omega,
            by simp only [hm1, hm2] at *; omega,
            by simp only [hm1, hm2] at *; omega⟩
        · -- b lies further down
          have hsb : s ≤ b.1 := hse _ hb''
          obtain ⟨c, hc, h1, h2, h3, h4⟩ := ih m m b hpair hmem_m
            (List.mem_cons_of_mem _ hb'')
            (hcur _ (List.mem_cons_of_mem _ hb''))
            (by simp only [hm1, hm2] at *; omega)
          exact ⟨c, hc, by simp only [hm1, hm2] at *; omega,
            by omega, by simp only [hm1, hm2] at *; omega, by omega⟩
      · -- a lies further down
        have hsa : s ≤ a.1 := hse _ ha''
        rcases List.mem_cons.mp hb with rfl | hb'
        · -- b is the running chunk
          obtain ⟨c, hc, h1, h2, h3, h4⟩ := ih m m a hpair hmem_m
            (List.mem_cons_of_mem _ ha'')
            (hcur _ (List.mem_cons_of_mem _ ha''))
            (by simp only [hm1, hm2] at *; omega)
          exact ⟨c, hc, by omega, by simp only [hm1, hm2] at *; omega,
            by omega, by simp only [hm1, hm2] at *; omega⟩
        rcases List.mem_cons.mp hb' with rfl | hb''
        · -- b is the head chunk (s, e)
          obtain ⟨c, hc, h1, h2, h3, h4⟩ := ih m m a hpair hmem_m
            (List.mem_cons_of_mem _ ha'')
            (hcur _ (List.mem_cons_of_mem _ ha''))
            (by simp only [hm1, hm2] at *; omega)
          exact ⟨c, hc, by omega, by simp only [hm1, hm2] at *; omega,
            by omega, by simp only [hm1, hm2] at *; omega⟩
        · -- both lie further down
          exact ih m a b hpair (List.mem_cons_of_mem _ ha'')
            (List.mem_cons_of_mem _ hb'') hab hgap
    case isFalse hm =>
      rcases List.mem_cons.mp ha with rfl | ha'
      · rcases List.mem_cons.mp hb with rfl | hb'
        · -- both are the running chunk, which is emitted unchanged
          exact ⟨_, List.mem_cons_self _ _, le_refl _, le_refl _,
            le_refl _, le_refl _⟩
        · -- impossible: b starts at or after s, beyond the running chunk's reach
          have hsb : s ≤ b.1 := by
            rcases List.mem_cons.mp hb' with rfl | hb''
            · exact le_refl _
            · exact hse _ hb''
          omega
      · have hsa : s ≤ a.1 := by
          rcases List.mem_cons.mp ha' with rfl | ha''
          · exact le_refl _
          · exact hse _ ha''
        rcases List.mem_cons.mp hb with rfl | hb'
        · -- b is the running chunk: a starts exactly at the running chunk's start
          obtain ⟨c, hc, h1, h2, h3, h4⟩ := ih (s, e) a a htail ha' ha'
            (le_refl _) (by omega)
          exact ⟨c, List.mem_cons_of_mem _ hc, h1, by omega, h3, by omega⟩
        · -- both lie at or beyond the head chunk
          obtain ⟨c, hc, h1, h2, h3, h4⟩ := ih (s, e) a b htail ha' hb' hab hgap
          exact ⟨c, List.mem_cons_of_mem _ hc, h1, h2, h3, h4⟩

instance : IsTrans (Nat × Nat) startLE :=
  ⟨fun _ _ _ hab hbc => le_trans hab hbc⟩

theorem insertChunk_of_all_le {x : Nat × Nat} {l : List (Nat × Nat)}
    (h : ∀ y ∈ l, y.1 ≤ x.1) : insertChunk x l = l ++ [x] := by
  induction l with
  | nil => rfl
  | cons z zs ih =>
    simp only [insertChunk]
    rw [if_pos (h z (List.mem_cons_self _ _))]
    rw [ih (fun y hy => h y (List.mem_cons_of_mem _ hy))]
    rfl

theorem sortByStart_of_pairwise {l : List (Nat × Nat)}
    (h : l.Pairwise startLE) : sortByStart l = l := by
  suffices hgen : ∀ (l acc : List (Nat × Nat)), l.Pairwise startLE →
      (∀ x ∈ l, ∀ y ∈ acc, y.1 ≤ x.1) →
      l.foldl (fun acc x => insertChunk x acc) acc = acc ++ l by
    simpa using hgen l [] h (by simp)
  intro l
  induction l with
  | nil => intro acc _ _; simp
  | cons x xs ih =>
    intro acc hl hall
    rcases List.pairwise_cons.mp hl with ⟨hx, hxs⟩
    simp only [List.foldl_cons]
    rw [insertChunk_of_all_le (hall x (List.mem_cons_self _ _))]
    rw [ih (acc ++ [x]) hxs ?_]
    · simp
    · intro z hz y hy
      rcases List.mem_append.mp hy with hy | hy
      · exact le_trans (hall x (List.mem_cons_self _ _) y hy)
          (hx z hz)
      · simp only [List.mem_singleton] at hy
        subst hy
        exact hx z hz

theorem mergeAdjacentAux_of_chain_gapGT {first : Nat × Nat}
    {rest : List (Nat × Nat)} (h : (first :: rest).Chain' gapGT) :
    mergeAdjacentAux first rest = first :: rest := by
  induction rest generalizing first with
  | nil => rfl
  | cons p ps ih =>
    obtain ⟨s, e⟩ := p
    rcases List.chain'_cons.mp h with ⟨h1, h2⟩
    simp only [mergeAdjacentAux]
    rw [if_neg (by unfold gapGT at h1; omega)]
    rw [ih h2]

theorem merge_adjacent_chain_startLE (l : List (Nat × Nat)) :
    (merge_adjacent l).Chain' startLE := by
  unfold merge_adjacent
  rcases hs : sortByStart l with _ | ⟨first, rest⟩
  · simp
  · have := pairwise_sortByStart l
    rw [hs] at this
    exact mergeAdjacentAux_chain_startLE first rest this

theorem merge_adjacent_chain_gapGT (l : List (Nat × Nat)) :
    (merge_adjacent l).Chain' gapGT := by
  unfold merge_adjacent
  rcases hs : sortByStart l with _ | ⟨first, rest⟩
  · simp
  · have := pairwise_sortByStart l
    rw [hs] at this
    exact mergeAdjacentAux_chain_gapGT first rest this

theorem merge_adjacent_pair_cover (l : List (Nat × Nat)) (a b : Nat × Nat)
    (ha : a ∈ l) (hb : b ∈ l) (hab : a.1 ≤ b.1) (hgap : b.1 ≤ a.2 + 1) :
    ∃ c ∈ merge_adjacent l,
      c.1 ≤ a.1 ∧ c.1 ≤ b.1 ∧ a.2 ≤ c.2 ∧ b.2 ≤ c.2 := by
  unfold merge_adjacent
  rcases hs : sortByStart l with _ | ⟨first, rest⟩
  · exfalso
    have : a ∈ sortByStart l := mem_sortByStart.mpr ha
    rw [hs] at this
    exact absurd this (List.not_mem_nil a)
  · have hp := pairwise_sortByStart l
    rw [hs] at hp
    have ha' : a ∈ first :: rest := by
      have := mem_sortByStart.mpr ha
      rwa [hs] at this
    have hb' : b ∈ first :: rest := by
      have := mem_sortByStart.mpr hb
      rwa [hs] at this
    exact mergeAdjacentAux_pair_cover rest first a b hp ha' hb' hab hgap

theorem pairwise_gapGT_of_chains :
    ∀ m : List (Nat × Nat), m.Pairwise startLE → m.Chain' gapGT →
      m.Pairwise gapGT := by
  intro m
  induction m with
  | nil => intro _ _; exact List.Pairwise.nil
  | cons c rest ih =>
    intro hpw hch
    rcases List.pairwise_cons.mp hpw with ⟨_, hpw'⟩
    refine List.pairwise_cons.mpr ⟨?_, ih hpw' hch.tail⟩
    intro x hx
    rcases rest with _ | ⟨r, rs⟩
    · exact absurd hx (List.not_mem_nil x)
    · have hcr : gapGT c r := (List.chain'_cons.mp hch).1
      rcases List.mem_cons.mp hx with rfl | hx
      · exact hcr
      · have hrx : startLE r x :=
          (List.pairwise_cons.mp hpw').1 x hx
        unfold gapGT at hcr ⊢
        unfold startLE at hrx
        omega

theorem merge_adjacent_pairwise_gapGT (l : List (Nat × Nat)) :
    (merge_adjacent l).Pairwise gapGT :=
  pairwise_gapGT_of_chains _
    (List.chain'_iff_pairwise.mp (merge_adjacent_chain_startLE l))
    (merge_adjacent_chain_gapGT l)

theorem merge_adjacent_idem (l : List (Nat × Nat)) :
    merge_adjacent (merge_adjacent l) = merge_adjacent l := by
  have hchainLE := merge_adjacent_chain_startLE l
  have hchainGap := merge_adjacent_chain_gapGT l
  have hpw : (merge_adjacent l).Pairwise startLE :=
    List.chain'_iff_pairwise.mp hchainLE
  conv_lhs => rw [merge_adjacent]
  rw [sortByStart_of_pairwise hpw]
  rcases hm : merge_adjacent l with _ | ⟨first, rest⟩
  · rfl
  · rw [hm] at hchainGap
    exact mergeAdjacentAux_of_chain_gapGT hchainGap

/-- Claim C2, evaluated at the failing input: the claim (and the doc comment
of `quoting_layer` itself) says a line starting with two `'>'` markers has
quoting depth 2, but the code sets `seen_non_ws` after the first counted
`'>'` and therefore breaks on the second one, returning 1.  A single marker
also returns 1, so extra markers never raise the depth. -/
theorem quoting_layer_break_on_second_marker :
    quoting_layer (String.toList ">> quoted diff") = 1 ∧
      quoting_layer (String.toList "> quoted diff") = 1 ∧ (1 : Nat) ≠ 2 := by
  refine ⟨by decide, by decide, by decide⟩

/-- Claim C4: for every (possibly unsorted) chunk list, `merge_adjacent`
returns a list sorted by start offset whose consecutive chunks satisfy
`next.start > previous.end + 1` — hence all output chunks are pairwise
separated and non-overlapping; any two input chunks at distance at most one
byte are covered by one common output chunk; `[(0,3),(4,6),(10,12)]` merges to
`[(0,6),(10,12)]` and the empty input yields the empty list. -/
theorem merge_adjacent_spec :
    (∀ l : List (Nat × Nat),
        (merge_adjacent l).Chain' startLE ∧ (merge_adjacent l).Chain' gapGT ∧
          (merge_adjacent l).Pairwise gapGT) ∧
      (∀ (l : List (Nat × Nat)) (a b : Nat × Nat), a ∈ l → b ∈ l →
        a.1 ≤ b.1 → b.1 ≤ a.2 + 1 →
        ∃ c ∈ merge_adjacent l,
          c.1 ≤ a.1 ∧ c.1 ≤ b.1 ∧ a.2 ≤ c.2 ∧ b.2 ≤ c.2) ∧
      merge_adjacent [(0, 3), (4, 6), (10, 12)] = [(0, 6), (10, 12)] ∧
      merge_adjacent [] = [] := by
  refine ⟨fun l => ⟨merge_adjacent_chain_startLE l, merge_adjacent_chain_gapGT l,
    merge_adjacent_pairwise_gapGT l⟩,
    merge_adjacent_pair_cover, by decide, by decide⟩

/-- Witness for claim C4 at a concrete input: the chunks `(0,3)` and `(4,6)`
are one byte apart, so one output chunk of `merge_adjacent [(0,3),(4,6)]`
covers both. -/
theorem merge_adjacent_spec_witness :
    ∃ c ∈ merge_adjacent [(0, 3), (4, 6)],
      c.1 ≤ 0 ∧ c.1 ≤ 4 ∧ 3 ≤ c.2 ∧ 6 ≤ c.2 :=
  merge_adjacent_spec.2.1 [(0, 3), (4, 6)] (0, 3) (4, 6)
    (by decide) (by decide) (by decide) (by decide)

/-- Claim C9: `merge_adjacent` is idempotent — applying it to its own output
returns that output unchanged. -/
theorem merge_adjacent_idempotent (l : List (Nat × Nat)) :
    merge_adjacent (merge_adjacent l) = merge_adjacent l :=
  merge_adjacent_idem l

/-! ## `src/heuristics.rs` — `Heuristics`

The tree-sitter collaborator exposes, per node: a kind label, start/end byte
offsets, a missing flag (synthesized nodes) and ordered children.  That is all
`Heuristics` reads, so a node is embedded as exactly those fields; walking
`next_sibling` from the first child is embedded as walking the child list. -/

inductive TSNode : Type where
  | mk : List Char → Nat → Nat → Bool → List TSNode → TSNode

def TSNode.kind : TSNode → List Char
  | .mk k _ _ _ _ => k

def TSNode.start_byte : TSNode → Nat
  | .mk _ s _ _ _ => s

def TSNode.end_byte : TSNode → Nat
  | .mk _ _ e _ _ => e

def TSNode.is_missing : TSNode → Bool
  | .mk _ _ _ m _ => m

def TSNode.children : TSNode → List TSNode
  | .mk _ _ _ _ cs => cs

/-- From `src/heuristics.rs`, `Heuristics::current_node_valid`: every node is
valid except a `"declaration"` node with no non-missing `";"` child. -/
def current_node_valid (node : TSNode) : Bool :=
  if node.kind ≠ String.toList "declaration" then true
  else node.children.any
    (fun child => child.kind == String.toList ";" && ! child.is_missing)

/-- The leaf kinds buffered into a primitive run by
`Heuristics::filter_identifier_blocks`. -/
def isPrimitiveKind (k : List Char) : Bool :=
  k == String.toList "identifier" || k == String.toList "type_identifier" ||
  k == String.toList "number_literal" || k == String.toList "ERROR"

/-- Flushing the pending primitive-run buffer: a run of length exactly 1 keeps
its single leaf, every other run is discarded (`if block_len == 1 { ... }`). -/
def flushBlock : Option TSNode → Nat → List TSNode
  | some idNode, blockLen => if blockLen = 1 then [idNode] else []
  | none, _ => []

mutual

/-- From `src/heuristics.rs`, `Heuristics::filter_children`: invalid nodes
yield nothing, childless nodes yield themselves, otherwise the sibling walk
over the children runs with an empty primitive-run buffer. -/
def filter_children (node : TSNode) : List TSNode :=
  if ! current_node_valid node then []
  else if node.children.isEmpty then [node]
  else filter_identifier_blocks node.children none 0
termination_by sizeOf node
decreasing_by
  cases node
  simp [TSNode.children]

/-- From `src/heuristics.rs`, `Heuristics::filter_identifier_blocks`: the
sibling walk.  `block_start`/`block_len` are the pending primitive-run buffer;
a primitive leaf extends it, any other child flushes it (keeping length-1 runs
only) before contributing itself (leaves) or its own filtered children
(non-leaves); the trailing run is flushed at the end of the walk. -/
def filter_identifier_blocks (siblings : List TSNode)
    (block_start : Option TSNode) (block_len : Nat) : List TSNode :=
  match siblings with
  | [] => flushBlock block_start block_len
  | node :: rest =>
    if node.children.isEmpty then
      if isPrimitiveKind node.kind then
        filter_identifier_blocks rest
          (if block_start.isNone then some node else block_start)
          (block_len + 1)
      else
        flushBlock block_start block_len ++ [node] ++
          filter_identifier_blocks rest none 0
    else
      flushBlock block_start block_len ++ filter_children node ++
        filter_identifier_blocks rest none 0
termination_by sizeOf siblings
decreasing_by
  all_goals simp_wf
  all_goals omega

end

/-- A sibling is a "primitive leaf" when it has no children and its kind is
one of the buffered kinds. -/
def primitiveLeaf (n : TSNode) : Prop :=
  n.children = [] ∧ isPrimitiveKind n.kind = true

instance : Inhabited TSNode := ⟨.mk [] 0 0 false []⟩

theorem fib_nil (bs : Option TSNode) (bl : Nat) :
    filter_identifier_blocks [] bs bl = flushBlock bs bl := by
  rw [filter_identifier_blocks]

theorem fib_cons (node : TSNode) (rest : List TSNode)
    (bs : Option TSNode) (bl : Nat) :
    filter_identifier_blocks (node :: rest) bs bl =
      if node.children.isEmpty then
        if isPrimitiveKind node.kind then
          filter_identifier_blocks rest
            (if bs.isNone then some node else bs) (bl + 1)
        else
          flushBlock bs bl ++ [node] ++ filter_identifier_blocks rest none 0
      else
        flushBlock bs bl ++ filter_children node ++
          filter_identifier_blocks rest none 0 := by
  rw [filter_identifier_blocks]

theorem filter_children_eq (node : TSNode) :
    filter_children node =
      if ! current_node_valid node then []
      else if node.children.isEmpty then [node]
      else filter_identifier_blocks node.children none 0 := by
  rw [filter_children]

theorem fib_of_run (suf : List TSNode)
    (hsuf : suf = [] ∨ ∃ s ss, suf = s :: ss ∧ ¬ primitiveLeaf s) :
    ∀ (run' : List TSNode) (r : TSNode) (k : Nat),
      (∀ n ∈ run', primitiveLeaf n) →
      filter_identifier_blocks (run' ++ suf) (some r) (k + 1) =
        (if k + 1 + run'.length = 1 then [r] else []) ++
          filter_identifier_blocks suf none 0 := by
  intro run'
  induction run' with
  | nil =>
    intro r k _
    simp only [List.nil_append, List.length_nil, Nat.add_zero]
    rcases hsuf with rfl | ⟨s, ss, rfl, hs⟩
    · simp [fib_nil, flushBlock]
    · unfold primitiveLeaf at hs
      by_cases hleaf : s.children = []
      · have hprim : isPrimitiveKind s.kind = false := by
          cases h : isPrimitiveKind s.kind
          · rfl
          · exact absurd ⟨hleaf, h⟩ hs
        rw [fib_cons, fib_cons]
        simp [hleaf, hprim, flushBlock]
      · rw [fib_cons, fib_cons]
        simp [List.isEmpty_iff, hleaf, flushBlock]
  | cons p ps ih =>
    intro r k hrun
    have hp := hrun p (List.mem_cons_self _ _)
    unfold primitiveLeaf at hp
    rw [List.cons_append, fib_cons]
    simp only [hp.1, hp.2, List.isEmpty_nil, if_true, Option.isNone_some,
      Bool.false_eq_true, if_false]
    rw [ih r (k + 1) (fun n hn => hrun n (List.mem_cons_of_mem _ hn))]
    simp only [List.length_cons]
    have harith : k + 1 + 1 + ps.length = k + 1 + (ps.length + 1) := by omega
    rw [harith]

theorem fib_run_flush (run suf : List TSNode)
    (hne : run ≠ [])
    (hrun : ∀ n ∈ run, primitiveLeaf n)
    (hsuf : suf = [] ∨ ∃ s ss, suf = s :: ss ∧ ¬ primitiveLeaf s) :
    filter_identifier_blocks (run ++ suf) none 0 =
      (if run.length = 1 then [run.headI] else []) ++
        filter_identifier_blocks suf none 0 := by
  rcases run with _ | ⟨r, rs⟩
  · exact absurd rfl hne
  · have hr := hrun r (List.mem_cons_self _ _)
    unfold primitiveLeaf at hr
    rw [List.cons_append, fib_cons]
    simp only [hr.1, hr.2, List.isEmpty_nil, if_true, Option.isNone_none,
      Nat.zero_add]
    rw [fib_of_run suf hsuf rs r 0
      (fun n hn => hrun n (List.mem_cons_of_mem _ hn))]
    simp only [List.headI_cons, List.length_cons, Nat.zero_add]
    have harith : 1 + rs.length = rs.length + 1 := by omega
    rw [harith]

/-- Example nodes for the concrete part of claim C7. -/
def exId1 : TSNode := .mk (String.toList "identifier") 0 1 false []

def exId2 : TSNode := .mk (String.toList "identifier") 2 3 false []

def exBrace : TSNode := .mk (String.toList "\x7b") 4 5 false []

def exParentTwoIds : TSNode :=
  .mk (String.toList "function_definition") 0 5 false [exId1, exId2, exBrace]

def exParentOneId : TSNode :=
  .mk (String.toList "function_definition") 0 5 false [exId1, exBrace]

theorem exId1_primitive : (exId1.children.isEmpty = true) ∧
    isPrimitiveKind exId1.kind = true := by
  refine ⟨rfl, by decide⟩

theorem exId2_primitive : (exId2.children.isEmpty = true) ∧
    isPrimitiveKind exId2.kind = true := by
  refine ⟨rfl, by decide⟩

theorem exBrace_flushes : (exBrace.children.isEmpty = true) ∧
    isPrimitiveKind exBrace.kind = false := by
  refine ⟨rfl, by decide⟩

theorem exParents_valid : current_node_valid exParentTwoIds = true ∧
    current_node_valid exParentOneId = true := by
  refine ⟨by decide, by decide⟩

/-- Claim C7: in the sibling walk of `filter_identifier_blocks`, a maximal run
of consecutive primitive leaves (identifier / type_identifier /
number_literal / ERROR) contributes its single leaf exactly when the run has
length 1, and contributes nothing when it is longer; in particular a valid
node with children `identifier, identifier, brace` keeps only the brace,
while `identifier, brace` keeps the lone identifier as its own chunk. -/
theorem filter_identifier_blocks_run_spec :
    (∀ run suf : List TSNode, run ≠ [] →
        (∀ n ∈ run, primitiveLeaf n) →
        (suf = [] ∨ ∃ s ss, suf = s :: ss ∧ ¬ primitiveLeaf s) →
        filter_identifier_blocks (run ++ suf) none 0 =
          (if run.length = 1 then [run.headI] else []) ++
            filter_identifier_blocks suf none 0) ∧
      filter_children exParentTwoIds = [exBrace] ∧
      filter_children exParentOneId = [exId1, exBrace] := by
  refine ⟨fib_run_flush, ?_, ?_⟩
  · rw [filter_children_eq]
    simp only [exParents_valid.1, Bool.not_true, Bool.false_eq_true, if_false]
    rw [show exParentTwoIds.children = [exId1, exId2, exBrace] from rfl]
    simp only [List.isEmpty_cons, Bool.false_eq_true, if_false]
    rw [fib_cons]
    simp only [exId1_primitive.1, exId1_primitive.2, if_true,
      Option.isNone_none]
    rw [fib_cons]
    simp only [exId2_primitive.1, exId2_primitive.2, if_true,
      Option.isNone_some, Bool.false_eq_true, if_false]
    rw [fib_cons]
    simp only [exBrace_flushes.1, exBrace_flushes.2, if_true,
      Bool.false_eq_true, if_false]
    rw [fib_nil]
    simp [flushBlock]
  · rw [filter_children_eq]
    simp only [exParents_valid.2, Bool.not_true, Bool.false_eq_true, if_false]
    rw [show exParentOneId.children = [exId1, exBrace] from rfl]
    simp only [List.isEmpty_cons, Bool.false_eq_true, if_false]
    rw [fib_cons]
    simp only [exId1_primitive.1, exId1_primitive.2, if_true,
      Option.isNone_none]
    rw [fib_cons]
    simp only [exBrace_flushes.1, exBrace_flushes.2, if_true,
      Bool.false_eq_true, if_false]
    rw [fib_nil]
    simp [flushBlock]

/-- Witness for claim C7: the singleton run `identifier` followed by a brace
leaf flushes as its own chunk. -/
theorem filter_identifier_blocks_run_spec_witness :
    filter_identifier_blocks ([exId1] ++ [exBrace]) none 0 =
      (if ([exId1] : List TSNode).length = 1 then [([exId1] : List TSNode).headI]
        else []) ++ filter_identifier_blocks [exBrace] none 0 :=
  filter_identifier_blocks_run_spec.1 [exId1] [exBrace]
    (by simp)
    (by
      intro n hn
      simp only [List.mem_singleton] at hn
      subst hn
      exact ⟨rfl, by decide⟩)
    (Or.inr ⟨exBrace, [], rfl, by
      intro h
      exact absurd h.2 (by decide)⟩)

/-! ## `src/parser/line.rs` — the per-quoting-layer line classifier -/

inductive CodeKind : Type where
  | Add
  | Remove
  | Context
deriving DecidableEq

inductive State : Type where
  | Text
  | Diff
  | Hunk
  | Code
deriving DecidableEq

/-- From `src/parser/line.rs`, `struct LayerState`: the per-quoting-layer
automaton state with the stored file path and language tag. -/
structure LayerState : Type where
  state : State
  file_path : List Char
  language : List Char
deriving DecidableEq

/-- From `src/parser/line.rs`, `enum Line`: one record per physical line. -/
inductive Line : Type where
  | Text (offset length quoting_layer : Nat) (raw : List Char)
  | DiffHeader (offset length quoting_layer : Nat)
      (file_path : List Char) (raw : List Char)
  | DiffMetadata (offset length quoting_layer : Nat) (raw : List Char)
  | HunkHeader (offset length quoting_layer : Nat)
      (file_path language : List Char) (raw : List Char)
  | Code (offset length quoting_layer : Nat) (kind : CodeKind)
      (file_path language : List Char) (raw : List Char)
deriving DecidableEq

instance : Inhabited Line := ⟨.Text 0 0 0 []⟩

def Line.offset : Line → Nat
  | .Text o _ _ _ => o
  | .DiffHeader o _ _ _ _ => o
  | .DiffMetadata o _ _ _ => o
  | .HunkHeader o _ _ _ _ _ => o
  | .Code o _ _ _ _ _ _ => o

def Line.length : Line → Nat
  | .Text _ n _ _ => n
  | .DiffHeader _ n _ _ _ => n
  | .DiffMetadata _ n _ _ => n
  | .HunkHeader _ n _ _ _ _ => n
  | .Code _ n _ _ _ _ _ => n

/-- From `src/parser/line.rs`, `Line::get_raw`. -/
def Line.get_raw : Line → List Char
  | .Text _ _ _ r => r
  | .DiffHeader _ _ _ _ r => r
  | .DiffMetadata _ _ _ r => r
  | .HunkHeader _ _ _ _ _ r => r
  | .Code _ _ _ _ _ _ r => r

/-- From `src/parser/line.rs`, `Line::get_quoting_layer`. -/
def Line.get_quoting_layer : Line → Nat
  | .Text _ _ q _ => q
  | .DiffHeader _ _ q _ _ => q
  | .DiffMetadata _ _ q _ => q
  | .HunkHeader _ _ q _ _ _ => q
  | .Code _ _ q _ _ _ _ => q

/-- From `src/parser/line.rs`, `Line::same_quoting_layer`. -/
def Line.same_quoting_layer (a b : Line) : Bool :=
  a.get_quoting_layer == b.get_quoting_layer

/-- From `src/parser/line.rs`, `Line::same_variant`. -/
def Line.same_variant : Line → Line → Bool
  | .Text .., .Text .. => true
  | .DiffHeader .., .DiffHeader .. => true
  | .DiffMetadata .., .DiffMetadata .. => true
  | .HunkHeader .., .HunkHeader .. => true
  | .Code .., .Code .. => true
  | _, _ => false

/-- Modelled from the spec: `Line::get_end_offset` is called by
`build_spans` in `src/parser/span.rs` but its definition is not under
`src/`; per §3 of the spec a record covers exactly the bytes
`[offset, offset + length)`, so its end offset is `offset + length`. -/
def Line.get_end_offset (l : Line) : Nat :=
  l.offset + l.length

/-- Rust's `str::split_whitespace` on the characters of one line:
whitespace-separated words, empty words dropped.  `wordsAux` carries the
(reversed) word being accumulated. -/
def wordsAux : List Char → List Char → List (List Char)
  | [], acc => if acc.isEmpty then [] else [acc.reverse]
  | c :: rest, acc =>
    if rustIsWs c then
      if acc.isEmpty then wordsAux rest [] else acc.reverse :: wordsAux rest []
    else
      wordsAux rest (c :: acc)

def split_whitespace (l : List Char) : List (List Char) :=
  wordsAux l []

/-- Rust's `str::trim_start_matches("a/")`: repeatedly strip a leading
`"a/"`. -/
def trimStartMatchesA : List Char → List Char
  | [] => []
  | [c] => [c]
  | c :: c2 :: rest =>
    if c = 'a' ∧ c2 = '/' then trimStartMatchesA rest else c :: c2 :: rest

/-- From `src/parser/line.rs`, `fn extract_file_path`: the third
whitespace-separated token (`nth(2)`), falling back to `"unknown"`, with
every leading `"a/"` stripped by `trim_start_matches`. -/
def extract_file_path (diff_line : List Char) : List Char :=
  trimStartMatchesA
    ((split_whitespace diff_line).getD 2 (String.toList "unknown"))

/-- Rust's `file_path.rsplit('.').next()`: the substring after the last
`'.'`, or the whole string when it has no `'.'`. -/
def rsplitNext (l : List Char) : List Char :=
  (l.reverse.takeWhile (fun c => c ≠ '.')).reverse

/-- From `src/parser/line.rs`, `fn detect_language`: the fixed
extension-to-language table keyed on `rsplit('.').next()`. -/
def detect_language (file_path : List Char) : List Char :=
  let ext := rsplitNext file_path
  if ext = String.toList "c" then String.toList "C"
  else if ext = String.toList "h" then String.toList "C Header"
  else if ext = String.toList "rs" then String.toList "Rust"
  else if ext = String.toList "py" then String.toList "Python"
  else String.toList "Unknown"

/-- From `src/parser/line.rs`, `fn match_code_kind`: the first character that
is neither space nor tab decides `Add`/`Remove`/`Context` (no character means
`Context`). -/
def match_code_kind (line : List Char) : Option CodeKind :=
  match line.find? (fun c => c != ' ' && c != '\t') with
  | some '+' => some CodeKind.Add
  | some '-' => some CodeKind.Remove
  | some _ => some CodeKind.Context
  | none => some CodeKind.Context

/-- The `get_or_insert_with` default in `parse_lines`: automaton state
`Text`, empty file path (`String::new()`), language `"Unknown"`. -/
def defaultLayerState : LayerState :=
  ⟨State.Text, [], String.toList "Unknown"⟩

/-- `layers.resize_with(ql + 1, || None)` in `parse_lines`, performed when
`ql >= layers.len()`. -/
def resizeLayers (layers : List (Option LayerState)) (ql : Nat) :
    List (Option LayerState) :=
  if layers.length ≤ ql then
    layers ++ List.replicate (ql + 1 - layers.length) none
  else
    layers

/-- The layer stored at depth `d`: the vector entry if present and
initialized, the `get_or_insert_with` default otherwise. -/
def layerView (layers : List (Option LayerState)) (d : Nat) : LayerState :=
  (layers.getD d none).getD defaultLayerState

/-- The `match entry.state` block of `parse_lines`: one line at one layer.
Returns the updated layer entry (the Rust code mutates `entry` in place) and
the emitted record.  `match_code_kind` never returns `none` (its `None` arm
also yields `Some(Context)`), so the Rust `unwrap()` is embedded as `getD
Context`. -/
def stepLayer (entry : LayerState) (trimmed : List Char)
    (offset len ql : Nat) (raw : List Char) : LayerState × Line :=
  match entry.state with
  | State.Text =>
    if (String.toList "diff --git").isPrefixOf trimmed then
      let fp := extract_file_path trimmed
      let lang := detect_language fp
      (⟨State.Diff, fp, lang⟩, Line.DiffHeader offset len ql fp raw)
    else
      (entry, Line.Text offset len ql raw)
  | State.Diff =>
    if (String.toList "@@").isPrefixOf trimmed then
      (⟨State.Hunk, entry.file_path, entry.language⟩,
        Line.HunkHeader offset len ql entry.file_path entry.language raw)
    else
      (entry, Line.DiffMetadata offset len ql raw)
  | State.Hunk | State.Code =>
    if (String.toList "@@").isPrefixOf trimmed then
      (⟨State.Hunk, entry.file_path, entry.language⟩,
        Line.HunkHeader offset len ql entry.file_path entry.language raw)
    else
      (⟨State.Code, entry.file_path, entry.language⟩,
        Line.Code offset len ql ((match_code_kind trimmed).getD CodeKind.Context)
          entry.file_path entry.language raw)

/-- One iteration of the `for raw in source.lines()` loop of `parse_lines`:
compute the quoting layer, strip the `'>'` markers and leading whitespace,
resize the layer vector, step the layer at the line's depth and store it
back. -/
def processLine (layers : List (Option LayerState)) (raw : List Char)
    (offset : Nat) : List (Option LayerState) × Line :=
  let len := raw.length + 1
  let ql := quoting_layer raw
  let line := raw.dropWhile (fun c => c == '>')
  let trimmed := line.dropWhile rustIsWs
  let layers1 := resizeLayers layers ql
  let entry := layerView layers1 ql
  let step := stepLayer entry trimmed offset len ql raw
  (layers1.set ql (some step.1), step.2)

/-- The loop of `parse_lines` over the already-split lines, threading the
byte offset (`offset += len`, `len = raw.len() + 1`) and the layer vector. -/
def parseLinesGo : List (List Char) → Nat → List (Option LayerState) → List Line
  | [], _, _ => []
  | raw :: rest, offset, layers =>
    (processLine layers raw offset).2 ::
      parseLinesGo rest (offset + (raw.length + 1)) (processLine layers raw offset).1

/-- Strip one trailing `'\r'`. -/
def stripCR (l : List Char) : List Char :=
  if l.getLast? = some '\r' then l.dropLast else l

/-- Rust's `str::lines`: split at `'\n'`, the final terminator optional; a
line that was terminated by `'\n'` additionally loses one trailing `'\r'`
(an unterminated final line keeps its `'\r'`). -/
def rustLinesAux : List Char → List Char → List (List Char)
  | [], acc => if acc.isEmpty then [] else [acc.reverse]
  | c :: rest, acc =>
    if c = '\n' then stripCR acc.reverse :: rustLinesAux rest []
    else rustLinesAux rest (c :: acc)

def rustLines (s : List Char) : List (List Char) :=
  rustLinesAux s []

/-- From `src/parser/line.rs`, `Line::parse_lines`. -/
def parse_lines (source : List Char) : List Line :=
  parseLinesGo (rustLines source) 0 []

theorem stepLayer_snd_fields (entry : LayerState) (trimmed : List Char)
    (offset len ql : Nat) (raw : List Char) :
    (stepLayer entry trimmed offset len ql raw).2.offset = offset ∧
      (stepLayer entry trimmed offset len ql raw).2.length = len ∧
      (stepLayer entry trimmed offset len ql raw).2.get_raw = raw ∧
      (stepLayer entry trimmed offset len ql raw).2.get_quoting_layer = ql := by
  obtain ⟨st, fp, lang⟩ := entry
  cases st <;> simp only [stepLayer] <;> split <;>
    simp [Line.offset, Line.length, Line.get_raw, Line.get_quoting_layer]

theorem processLine_snd_fields (layers : List (Option LayerState))
    (raw : List Char) (offset : Nat) :
    (processLine layers raw offset).2.offset = offset ∧
      (processLine layers raw offset).2.length = raw.length + 1 ∧
      (processLine layers raw offset).2.get_raw = raw ∧
      (processLine layers raw offset).2.get_quoting_layer =
        quoting_layer raw :=
  stepLayer_snd_fields _ _ _ _ _ _

/-- The tiling predicate: starting at byte `off`, each record sits exactly at
the running offset and advances it by its own length. -/
def tiles : Nat → List Line → Prop
  | _, [] => True
  | off, l :: ls => l.offset = off ∧ tiles (off + l.length) ls

theorem parseLinesGo_spec (raws : List (List Char)) :
    ∀ (offset : Nat) (layers : List (Option LayerState)),
      tiles offset (parseLinesGo raws offset layers) ∧
        (parseLinesGo raws offset layers).map Line.get_raw = raws ∧
        (parseLinesGo raws offset layers).map Line.length =
          raws.map (fun l => l.length + 1) := by
  induction raws with
  | nil => intro offset layers; exact ⟨trivial, rfl, rfl⟩
  | cons raw rest ih =>
    intro offset layers
    obtain ⟨ho, hl, hr, _⟩ := processLine_snd_fields layers raw offset
    obtain ⟨iht, ihr, ihl⟩ :=
      ih (offset + (raw.length + 1)) (processLine layers raw offset).1
    refine ⟨⟨ho, ?_⟩, ?_, ?_⟩
    · rw [hl]
      exact iht
    · simp only [parseLinesGo, List.map_cons, hr, ihr]
    · simp only [parseLinesGo, List.map_cons, hl, ihl]

/-- The input built back from a list of line contents, each terminated by a
single `'\n'`. -/
def joinNL (ls : List (List Char)) : List Char :=
  (ls.map (fun l => l ++ ['\n'])).flatten

theorem joinNL_length (ls : List (List Char)) :
    (joinNL ls).length = (ls.map (fun l => l.length + 1)).sum := by
  induction ls with
  | nil => rfl
  | cons l ls ih =>
    simp only [joinNL, List.map_cons, List.flatten] at *
    simp [ih]
    omega

theorem rustLinesAux_line (rest : List Char) :
    ∀ (l acc : List Char), '\n' ∉ l →
      rustLinesAux (l ++ '\n' :: rest) acc =
        stripCR (acc.reverse ++ l) :: rustLinesAux rest [] := by
  intro l
  induction l with
  | nil =>
    intro acc _
    simp [rustLinesAux]
  | cons c cs ih =>
    intro acc h
    have hc : ¬ c = '\n' := fun e => h (e ▸ List.mem_cons_self c cs)
    have hcs : '\n' ∉ cs := fun e => h (List.mem_cons_of_mem c e)
    simp only [List.cons_append, rustLinesAux, if_neg hc]
    simp only [List.append_eq]
    rw [ih (c :: acc) hcs]
    simp

theorem rustLines_joinNL (ls : List (List Char))
    (h : ∀ l ∈ ls, '\n' ∉ l ∧ l.getLast? ≠ some '\r') :
    rustLines (joinNL ls) = ls := by
  induction ls with
  | nil => rfl
  | cons l ls ih =>
    obtain ⟨hnl, hcr⟩ := h l (List.mem_cons_self l ls)
    have hjoin : joinNL (l :: ls) = l ++ '\n' :: joinNL ls := by
      simp [joinNL]
    rw [rustLines, hjoin, rustLinesAux_line (joinNL ls) l [] hnl]
    simp only [List.reverse_nil, List.nil_append]
    rw [show stripCR l = l by simp [stripCR, hcr]]
    rw [show rustLinesAux (joinNL ls) [] = rustLines (joinNL ls) from rfl]
    rw [ih (fun x hx => h x (List.mem_cons_of_mem l hx))]

/-- Claim C1 (amended): exact tiling holds for inputs made of
`'\n'`-terminated lines whose contents contain no `'\n'` and do not end in
`'\r'`: the records' raw texts are exactly the line contents, each record's
length is its line's length plus one terminator byte, the records tile the
input starting at offset 0 with each offset equal to the previous offset plus
the previous length, and the lengths sum to the input's byte length. -/
theorem parse_lines_tiling (ls : List (List Char))
    (h : ∀ l ∈ ls, '\n' ∉ l ∧ l.getLast? ≠ some '\r') :
    tiles 0 (parse_lines (joinNL ls)) ∧
      (parse_lines (joinNL ls)).map Line.get_raw = ls ∧
      (parse_lines (joinNL ls)).map Line.length =
        ls.map (fun l => l.length + 1) ∧
      ((parse_lines (joinNL ls)).map Line.length).sum =
        (joinNL ls).length := by
  have hrl : rustLines (joinNL ls) = ls := rustLines_joinNL ls h
  have hPL : parse_lines (joinNL ls) = parseLinesGo ls 0 [] := by
    rw [parse_lines, hrl]
  obtain ⟨ht, hraw, hlen⟩ := parseLinesGo_spec ls 0 []
  rw [hPL]
  exact ⟨ht, hraw, hlen, by rw [hlen, joinNL_length]⟩

/-- Witness for claim C1 at the concrete input `"hi\n"`. -/
theorem parse_lines_tiling_witness :
    tiles 0 (parse_lines (joinNL [String.toList "hi"])) ∧
      (parse_lines (joinNL [String.toList "hi"])).map Line.get_raw =
        [String.toList "hi"] ∧
      (parse_lines (joinNL [String.toList "hi"])).map Line.length =
        [String.toList "hi"].map (fun l => l.length + 1) ∧
      ((parse_lines (joinNL [String.toList "hi"])).map Line.length).sum =
        (joinNL [String.toList "hi"]).length :=
  parse_lines_tiling [String.toList "hi"] (by decide)

/-- Claim C1 counterexample: as stated over every input string the claim is
false.  For the unterminated input `"a"` the single record has length 2 (the
code always adds one for a terminator) while the input has 1 byte; for the
CRLF input `"a\r\n"` the record has length 2 while the input has 3 bytes, so
in both cases the lengths do not sum to the input's byte length. -/
theorem parse_lines_tiling_counterexample :
    ((parse_lines (String.toList "a")).map Line.length).sum = 2 ∧
      (String.toList "a").length = 1 ∧
      ((parse_lines (String.toList "a\r\n")).map Line.length).sum = 2 ∧
      (String.toList "a\r\n").length = 3 := by
  refine ⟨by decide, by decide, by decide, by decide⟩

/-! ### Per-layer frame and temporal lemmas (claims C5 and C6) -/

theorem layerView_append_replicate_none (layers : List (Option LayerState))
    (k d : Nat) :
    layerView (layers ++ List.replicate k none) d = layerView layers d := by
  unfold layerView
  rw [List.getD_eq_getElem?_getD, List.getD_eq_getElem?_getD]
  rcases Nat.lt_or_ge d layers.length with h | h
  · rw [List.getElem?_append_left h]
  · rw [List.getElem?_append_right h, List.getElem?_replicate,
      List.getElem?_eq_none h]
    split <;> simp

theorem layerView_resize (layers : List (Option LayerState)) (ql d : Nat) :
    layerView (resizeLayers layers ql) d = layerView layers d := by
  unfold resizeLayers
  split
  · exact layerView_append_replicate_none _ _ _
  · rfl

theorem length_resize (layers : List (Option LayerState)) (ql : Nat) :
    ql < (resizeLayers layers ql).length := by
  unfold resizeLayers
  split
  · simp only [List.length_append, List.length_replicate]
    omega
  · omega

theorem layerView_set_ne (layers : List (Option LayerState)) (i j : Nat)
    (x : LayerState) (h : i ≠ j) :
    layerView (layers.set i (some x)) j = layerView layers j := by
  unfold layerView
  rw [List.getD_eq_getElem?_getD, List.getD_eq_getElem?_getD,
    List.getElem?_set_ne h]

theorem layerView_set_self (layers : List (Option LayerState)) (i : Nat)
    (x : LayerState) (h : i < layers.length) :
    layerView (layers.set i (some x)) i = x := by
  unfold layerView
  rw [List.getD_eq_getElem?_getD]
  rw [show (layers.set i (some x))[i]? = some (some x) from
    (List.getElem?_set_self' ..).trans (by simp [List.getElem?_eq_getElem h])]
  rfl

theorem processLine_view_frame (layers : List (Option LayerState))
    (raw : List Char) (offset d : Nat) (h : d ≠ quoting_layer raw) :
    layerView (processLine layers raw offset).1 d = layerView layers d := by
  simp only [processLine]
  rw [layerView_set_ne _ _ _ _ (fun e => h e.symm)]
  exact layerView_resize _ _ _

theorem processLine_view_self (layers : List (Option LayerState))
    (raw : List Char) (offset : Nat) :
    layerView (processLine layers raw offset).1 (quoting_layer raw) =
      (stepLayer (layerView layers (quoting_layer raw))
        ((raw.dropWhile (fun c => c == '>')).dropWhile rustIsWs)
        offset (raw.length + 1) (quoting_layer raw) raw).1 := by
  simp only [processLine]
  rw [layerView_set_self _ _ _ (length_resize layers _)]
  rw [layerView_resize]

theorem stepLayer_fst_state_ne_Text (entry : LayerState) (trimmed : List Char)
    (offset len ql : Nat) (raw : List Char) (h : entry.state ≠ State.Text) :
    (stepLayer entry trimmed offset len ql raw).1.state ≠ State.Text := by
  obtain ⟨st, fp, lang⟩ := entry
  cases st
  · exact absurd rfl h
  all_goals simp only [stepLayer]
  all_goals split
  all_goals simp

theorem processLine_state_preserved (layers : List (Option LayerState))
    (raw : List Char) (offset d : Nat)
    (h : (layerView layers d).state ≠ State.Text) :
    (layerView (processLine layers raw offset).1 d).state ≠ State.Text := by
  by_cases hq : quoting_layer raw = d
  · subst hq
    rw [processLine_view_self]
    exact stepLayer_fst_state_ne_Text _ _ _ _ _ _ h
  · rw [processLine_view_frame _ _ _ _ (fun e => hq e.symm)]
    exact h

/-- Whether a record is a `Text` record at quoting layer `d`. -/
def isTextAt (d : Nat) : Line → Bool
  | .Text _ _ ql _ => ql == d
  | _ => false

/-- Whether a record is a `DiffHeader` record at quoting layer `d`. -/
def isDiffHeaderAt (d : Nat) : Line → Bool
  | .DiffHeader _ _ ql _ _ => ql == d
  | _ => false

theorem isTextAt_ql {d : Nat} {r : Line} (h : isTextAt d r = true) :
    r.get_quoting_layer = d := by
  cases r <;> simp [isTextAt] at h
  simp [Line.get_quoting_layer, h]

theorem stepLayer_not_textAt (entry : LayerState) (trimmed : List Char)
    (offset len ql : Nat) (raw : List Char) (d : Nat)
    (h : entry.state ≠ State.Text) :
    isTextAt d (stepLayer entry trimmed offset len ql raw).2 = false := by
  obtain ⟨st, fp, lang⟩ := entry
  cases st
  · exact absurd rfl h
  all_goals simp only [stepLayer]
  all_goals split
  all_goals simp [isTextAt]

theorem stepLayer_diffHeaderAt (entry : LayerState) (trimmed : List Char)
    (offset len ql : Nat) (raw : List Char) (d : Nat)
    (h : isDiffHeaderAt d (stepLayer entry trimmed offset len ql raw).2 = true) :
    ql = d ∧ (stepLayer entry trimmed offset len ql raw).1.state = State.Diff := by
  obtain ⟨st, fp, lang⟩ := entry
  cases st <;> simp only [stepLayer] at h ⊢ <;> split at h <;>
    simp [isDiffHeaderAt] at h
  rename_i hcond
  rw [if_pos hcond]
  exact ⟨h, rfl⟩

theorem parseLinesGo_no_textAt (raws : List (List Char)) :
    ∀ (offset : Nat) (layers : List (Option LayerState)) (d : Nat),
      (layerView layers d).state ≠ State.Text →
      ∀ r ∈ parseLinesGo raws offset layers, isTextAt d r = false := by
  induction raws with
  | nil => intro offset layers d _ r hr; simp [parseLinesGo] at hr
  | cons raw rest ih =>
    intro offset layers d hne r hr
    rcases List.mem_cons.mp hr with rfl | hr
    · by_cases hq : quoting_layer raw = d
      · have hentry : (layerView (resizeLayers layers (quoting_layer raw))
            (quoting_layer raw)).state ≠ State.Text := by
          rw [layerView_resize, hq]
          exact hne
        exact stepLayer_not_textAt _ _ _ _ _ _ _ hentry
      · cases htx : isTextAt d (processLine layers raw offset).2
        · rfl
        · exfalso
          have h1 := isTextAt_ql htx
          have h2 := (processLine_snd_fields layers raw offset).2.2.2
          rw [h2] at h1
          exact hq h1
    · exact ih _ _ d (processLine_state_preserved layers raw offset d hne) r hr

theorem parseLinesGo_no_text_after_dh (raws : List (List Char)) :
    ∀ (offset : Nat) (layers : List (Option LayerState)) (d : Nat)
      (l₁ l₂ l₃ : List Line) (x y : Line),
      parseLinesGo raws offset layers = l₁ ++ x :: l₂ ++ y :: l₃ →
      isDiffHeaderAt d x = true → isTextAt d y = false := by
  induction raws with
  | nil =>
    intro offset layers d l₁ l₂ l₃ x y heq _
    rw [parseLinesGo] at heq
    exact absurd heq.symm (by simp)
  | cons raw rest ih =>
    intro offset layers d l₁ l₂ l₃ x y heq hx
    rw [parseLinesGo] at heq
    cases l₁ with
    | nil =>
      rw [List.nil_append] at heq
      injection heq with h1 h2
      subst h1
      obtain ⟨hqd, hst⟩ := stepLayer_diffHeaderAt _ _ _ _ _ _ d hx
      have hview : (layerView (processLine layers raw offset).1 d).state =
          State.Diff := by
        rw [← hqd]
        rw [processLine_view_self]
        rw [layerView_resize] at hst
        exact hst
      have hy : y ∈ parseLinesGo rest (offset + (raw.length + 1))
          (processLine layers raw offset).1 := by
        rw [h2]
        simp
      refine parseLinesGo_no_textAt rest _ _ d ?_ y hy
      rw [hview]
      simp
    | cons a l₁x =>
      rw [List.cons_append] at heq
      injection heq with h1 h2
      exact ih _ _ d l₁x l₂ l₃ x y h2 hx

/-- Claim C6: once a quoting layer's automaton has left `Text` it never
returns there, so `parse_lines` never emits a `Text` record at a layer after
a `DiffHeader` record at that same layer. -/
theorem parse_lines_no_text_after_diff :
    (∀ (source : List Char) (d : Nat) (l₁ l₂ l₃ : List Line) (x y : Line),
        parse_lines source = l₁ ++ x :: l₂ ++ y :: l₃ →
        isDiffHeaderAt d x = true → isTextAt d y = false) ∧
      ∀ (layers : List (Option LayerState)) (raw : List Char) (offset d : Nat),
        (layerView layers d).state ≠ State.Text →
        (layerView (processLine layers raw offset).1 d).state ≠ State.Text :=
  ⟨fun source => parseLinesGo_no_text_after_dh (rustLines source) 0 [],
    processLine_state_preserved⟩

/-- Witness for claim C6 at the concrete input `"diff --git\nx"`: the second
record (a `DiffMetadata` at layer 0) following the layer-0 `DiffHeader` is
not a `Text` record. -/
theorem parse_lines_no_text_after_diff_witness :
    isTextAt 0 (Line.DiffMetadata 11 2 0 (String.toList "x")) = false :=
  parse_lines_no_text_after_diff.1 (String.toList "diff --git\nx") 0 [] [] []
    (Line.DiffHeader 0 11 0 (String.toList "unknown")
      (String.toList "diff --git"))
    (Line.DiffMetadata 11 2 0 (String.toList "x"))
    (by decide) (by decide)

/-- From `parse_lines`: the layer-vector evolution alone, one fold step per
raw line (the stored layer states do not depend on the byte offsets). -/
def runLayers (raws : List (List Char))
    (layers : List (Option LayerState)) : List (Option LayerState) :=
  raws.foldl (fun ls raw => (processLine ls raw 0).1) layers

theorem runLayers_congr_at (d : Nat) (raws : List (List Char)) :
    ∀ L1 L2 : List (Option LayerState),
      layerView L1 d = layerView L2 d →
      layerView (runLayers raws L1) d = layerView (runLayers raws L2) d := by
  induction raws with
  | nil => intro L1 L2 h; exact h
  | cons raw rest ih =>
    intro L1 L2 h
    refine ih (processLine L1 raw 0).1 (processLine L2 raw 0).1 ?_
    by_cases hq : quoting_layer raw = d
    · subst hq
      rw [processLine_view_self, processLine_view_self, h]
    · rw [processLine_view_frame _ _ _ _ (fun e => hq e.symm),
        processLine_view_frame _ _ _ _ (fun e => hq e.symm)]
      exact h

theorem runLayers_filter (d : Nat) (raws : List (List Char)) :
    ∀ L : List (Option LayerState),
      layerView (runLayers raws L) d =
        layerView (runLayers (raws.filter fun r => quoting_layer r == d) L) d := by
  induction raws with
  | nil => intro L; rfl
  | cons raw rest ih =>
    intro L
    by_cases hq : quoting_layer raw = d
    · have hf : (raw :: rest).filter (fun r => quoting_layer r == d) =
          raw :: rest.filter (fun r => quoting_layer r == d) := by
        simp [List.filter_cons, hq]
      rw [hf]
      rw [show runLayers (raw :: rest) L =
        runLayers rest (processLine L raw 0).1 from rfl]
      rw [show runLayers (raw :: rest.filter fun r => quoting_layer r == d) L =
        runLayers (rest.filter fun r => quoting_layer r == d)
          (processLine L raw 0).1 from rfl]
      exact ih (processLine L raw 0).1
    · have hf : (raw :: rest).filter (fun r => quoting_layer r == d) =
          rest.filter (fun r => quoting_layer r == d) := by
        simp [List.filter_cons, hq]
      rw [hf]
      rw [show runLayers (raw :: rest) L =
        runLayers rest (processLine L raw 0).1 from rfl]
      rw [ih (processLine L raw 0).1]
      exact runLayers_congr_at d _ _ _
        (processLine_view_frame L raw 0 d (fun e => hq e.symm))

/-- Claim C5: one `parse_lines` step on a line of quoting depth `ql` leaves
every other layer's stored automaton state, file path and language tag
unchanged; consequently the layer state stored at depth `d` after a whole run
equals the state after running only the depth-`d` lines. -/
theorem processLine_frame_spec :
    (∀ (layers : List (Option LayerState)) (raw : List Char) (offset d : Nat),
        d ≠ quoting_layer raw →
        layerView (processLine layers raw offset).1 d = layerView layers d) ∧
      ∀ (raws : List (List Char)) (layers : List (Option LayerState)) (d : Nat),
        layerView (runLayers raws layers) d =
          layerView (runLayers (raws.filter fun r => quoting_layer r == d)
            layers) d :=
  ⟨processLine_view_frame, fun raws layers d => runLayers_filter d raws layers⟩

/-- Witness for claim C5: a depth-0 line leaves layer 1 untouched. -/
theorem processLine_frame_spec_witness :
    layerView (processLine [] (String.toList "hello") 0).1 1 =
      layerView [] 1 :=
  processLine_frame_spec.1 [] (String.toList "hello") 0 1 (by decide)

/-! ### File-path extraction and language detection (claim C8) -/

theorem isPrefixOf_av_length {t : List Char}
    (h : (String.toList "a/").isPrefixOf t = true) : 2 ≤ t.length := by
  match t with
  | [] => simp [List.isPrefixOf] at h
  | [c] => simp [List.isPrefixOf] at h
  | c1 :: c2 :: rest => simp

/-- Modelled from the amended claim's words: repeatedly strip the leading
directory marker `"a/"` from the token. -/
def stripLeadingAs (t : List Char) : List Char :=
  if h : (String.toList "a/").isPrefixOf t = true then
    stripLeadingAs (t.drop 2)
  else
    t
termination_by t.length
decreasing_by
  have := isPrefixOf_av_length h
  simp only [List.length_drop]
  omega

/-- Modelled from the spec's words: the fixed extension-to-language table of
§4.2, with sentinel `"Unknown"` for everything unmapped. -/
def languageFor (ext : List Char) : List Char :=
  if ext = String.toList "c" then String.toList "C"
  else if ext = String.toList "h" then String.toList "C Header"
  else if ext = String.toList "rs" then String.toList "Rust"
  else if ext = String.toList "py" then String.toList "Python"
  else String.toList "Unknown"

theorem trimStartMatchesA_eq_strip (t : List Char) :
    trimStartMatchesA t = stripLeadingAs t := by
  match t with
  | [] =>
    rw [stripLeadingAs]
    rfl
  | [c] =>
    rw [stripLeadingAs]
    rw [dif_neg (by simp [List.isPrefixOf])]
    rfl
  | c1 :: c2 :: rest =>
    by_cases hc : c1 = 'a' ∧ c2 = '/'
    · obtain ⟨rfl, rfl⟩ := hc
      rw [stripLeadingAs]
      rw [dif_pos (by simp [List.isPrefixOf])]
      rw [show trimStartMatchesA ('a' :: '/' :: rest) =
        trimStartMatchesA rest by simp [trimStartMatchesA]]
      exact trimStartMatchesA_eq_strip rest
    · rw [stripLeadingAs]
      rw [dif_neg (by simp [List.isPrefixOf]; tauto)]
      simp [trimStartMatchesA, hc]
termination_by t.length

theorem takeWhile_append_stop (pr : Char → Bool) (B : List Char) (x : Char)
    (hx : pr x = false) :
    ∀ A : List Char, (∀ a ∈ A, pr a = true) →
      (A ++ x :: B).takeWhile pr = A := by
  intro A
  induction A with
  | nil => intro _; simp [List.takeWhile, hx]
  | cons a as ih =>
    intro h
    simp only [List.cons_append, List.takeWhile_cons,
      h a (List.mem_cons_self a as), if_true]
    rw [ih (fun b hb => h b (List.mem_cons_of_mem a hb))]

theorem rsplitNext_no_dot (p : List Char) (h : '.' ∉ p) : rsplitNext p = p := by
  unfold rsplitNext
  rw [show p.reverse.takeWhile (fun c => c ≠ '.') = p.reverse from ?_]
  · exact List.reverse_reverse p
  · rw [List.takeWhile_eq_self_iff]
    intro c hc
    have : c ∈ p := List.mem_reverse.mp hc
    simp only [decide_eq_true_eq]
    exact fun e => h (e ▸ this)

theorem rsplitNext_after_dot (stem ext : List Char) (h : '.' ∉ ext) :
    rsplitNext (stem ++ '.' :: ext) = ext := by
  unfold rsplitNext
  rw [List.reverse_append, List.reverse_cons]
  rw [show ext.reverse ++ ['.'] ++ stem.reverse =
    ext.reverse ++ '.' :: stem.reverse by simp]
  rw [takeWhile_append_stop _ _ '.' (by simp) ext.reverse ?_]
  · exact List.reverse_reverse ext
  · intro a ha
    have : a ∈ ext := List.mem_reverse.mp ha
    simp only [decide_eq_true_eq]
    exact fun e => h (e ▸ this)

/-- Claim C8 (amended): the stored file path is the third
whitespace-separated token with every (not just one) leading `"a/"` marker
stripped, falling back to `"unknown"` when no third token exists; the
language tag is keyed on the substring after the last `'.'` — with the whole
name used as the key when the path has no `'.'` at all — through the table
c → C, h → C Header, rs → Rust, py → Python, anything else → Unknown. -/
theorem extract_detect_amended :
    (∀ l : List Char, (split_whitespace l).length ≤ 2 →
        extract_file_path l = String.toList "unknown") ∧
      (∀ l t : List Char, (split_whitespace l)[2]? = some t →
        extract_file_path l = stripLeadingAs t) ∧
      (∀ p : List Char, '.' ∉ p → detect_language p = languageFor p) ∧
      (∀ stem ext : List Char, '.' ∉ ext →
        detect_language (stem ++ '.' :: ext) = languageFor ext) := by
  refine ⟨?_, ?_, ?_, ?_⟩
  · intro l h
    unfold extract_file_path
    rw [List.getD_eq_default _ _ h]
    rfl
  · intro l t h
    unfold extract_file_path
    rw [List.getD_eq_getElem?_getD, h]
    exact trimStartMatchesA_eq_strip t
  · intro p h
    show languageFor (rsplitNext p) = languageFor p
    rw [rsplitNext_no_dot p h]
  · intro stem ext h
    show languageFor (rsplitNext (stem ++ '.' :: ext)) = languageFor ext
    rw [rsplitNext_after_dot stem ext h]

/-- Witness for claim C8: on the diff-header line
`"diff --git a/a/b.c x"` the third token is `"a/a/b.c"` and the stored path
is that token with leading `"a/"` markers stripped. -/
theorem extract_detect_amended_witness :
    extract_file_path (String.toList "diff --git a/a/b.c x") =
      stripLeadingAs (String.toList "a/a/b.c") :=
  extract_detect_amended.2.1 (String.toList "diff --git a/a/b.c x")
    (String.toList "a/a/b.c") (by decide)

/-- Claim C8 counterexample: the claim as stated is false on the code.  On
the realistic diff-header line `"diff --git a/a/b.c b/a/b.c"` (the changed
file lives in a directory literally named `a`) the third token is
`"a/a/b.c"`; stripping one leading `"a/"` would store `"a/b.c"`, but
`trim_start_matches` strips repeatedly and the code stores `"b.c"`.  And the
extension-absent path `"rs"` maps to `"Rust"`, not to the sentinel
`"Unknown"`, because `rsplit('.').next()` returns the whole name when there
is no dot. -/
theorem extract_detect_counterexample :
    extract_file_path (String.toList "diff --git a/a/b.c b/a/b.c") =
        String.toList "b.c" ∧
      String.toList "b.c" ≠ String.toList "a/b.c" ∧
      detect_language (String.toList "rs") = String.toList "Rust" ∧
      String.toList "Rust" ≠ String.toList "Unknown" := by
  refine ⟨by decide, by decide, by decide, by decide⟩

/-! ## `src/parser/span.rs` — `Span` and `build_spans` -/

/-- From `src/parser/span.rs`, `enum Span`: the grouped record runs.  The
Rust field `end` is a reserved word here and is embedded as `end_offset`. -/
inductive Span : Type where
  | Text (start end_offset quoting_layer : Nat) (lines : List Line)
  | DiffHeader (start end_offset quoting_layer : Nat) (lines : List Line)
  | DiffMetadata (start end_offset quoting_layer : Nat) (lines : List Line)
  | HunkHeader (start end_offset quoting_layer : Nat) (lines : List Line)
  | Code (start end_offset quoting_layer : Nat) (kind : CodeKind)
      (lines : List Line)
deriving DecidableEq

def Span.lines : Span → List Line
  | .Text _ _ _ ls => ls
  | .DiffHeader _ _ _ ls => ls
  | .DiffMetadata _ _ _ ls => ls
  | .HunkHeader _ _ _ ls => ls
  | .Code _ _ _ _ ls => ls

/-- The first record of a span's slice (spans built by `build_spans` always
carry a nonempty slice). -/
def spanFirst (s : Span) : Line :=
  (Span.lines s).headI

/-- The `match &lines[start_idx]` block of `build_spans`: a span of the same
variant as the run's first record, from the first record's offset to the last
record's end offset, replicating the first record's layer (and code kind). -/
def mkSpan (first : Line) (group : List Line) (lastRec : Line) : Span :=
  match first with
  | .Text offset _ ql _ =>
    .Text offset lastRec.get_end_offset ql group
  | .DiffHeader offset _ ql _ _ =>
    .DiffHeader offset lastRec.get_end_offset ql group
  | .DiffMetadata offset _ ql _ =>
    .DiffMetadata offset lastRec.get_end_offset ql group
  | .HunkHeader offset _ ql _ _ _ =>
    .HunkHeader offset lastRec.get_end_offset ql group
  | .Code offset _ ql kind _ _ _ =>
    .Code offset lastRec.get_end_offset ql kind group

/-- From `src/parser/span.rs`, `fn build_spans`: scan left to right, extending
the current run while the next record agrees with the run's first record in
quoting layer and variant, closing the run (into `mkSpan`) otherwise or at
the end of the input. -/
def build_spans : List Line → List Span
  | [] => []
  | x :: xs =>
    mkSpan x
      (x :: xs.takeWhile fun y => x.same_quoting_layer y && x.same_variant y)
      ((xs.takeWhile fun y => x.same_quoting_layer y && x.same_variant y).getLastD x) ::
      build_spans (xs.dropWhile fun y => x.same_quoting_layer y && x.same_variant y)
termination_by l => l.length
decreasing_by
  have := List.Sublist.length_le
    (List.dropWhile_sublist (fun y => x.same_quoting_layer y && x.same_variant y)
      (l := xs))
  simp only [List.length_cons]
  omega

theorem mkSpan_lines (first : Line) (group : List Line) (lastRec : Line) :
    Span.lines (mkSpan first group lastRec) = group := by
  cases first <;> rfl

theorem build_spans_nil : build_spans [] = [] := by
  rw [build_spans]

theorem build_spans_cons (x : Line) (xs : List Line) :
    build_spans (x :: xs) =
      mkSpan x
        (x :: xs.takeWhile fun y => x.same_quoting_layer y && x.same_variant y)
        ((xs.takeWhile fun y => x.same_quoting_layer y && x.same_variant y).getLastD x) ::
        build_spans (xs.dropWhile fun y => x.same_quoting_layer y && x.same_variant y) := by
  rw [build_spans]

theorem build_spans_flatten (lines : List Line) :
    ((build_spans lines).map Span.lines).flatten = lines := by
  match lines with
  | [] => rw [build_spans_nil]; rfl
  | x :: xs =>
    rw [build_spans_cons]
    simp only [List.map_cons, List.flatten_cons, mkSpan_lines]
    rw [build_spans_flatten
      (xs.dropWhile fun y => x.same_quoting_layer y && x.same_variant y)]
    simp only [List.cons_append, List.cons.injEq, true_and]
    exact List.takeWhile_append_dropWhile _ xs
termination_by lines.length
decreasing_by
  have := List.Sublist.length_le
    (List.dropWhile_sublist (fun y => x.same_quoting_layer y && x.same_variant y)
      (l := xs))
  simp only [List.length_cons]
  omega

theorem build_spans_homogeneous (lines : List Line) :
    ∀ s ∈ build_spans lines, ∃ f rest, Span.lines s = f :: rest ∧
      ∀ y ∈ Span.lines s,
        (f.same_quoting_layer y && f.same_variant y) = true := by
  match lines with
  | [] => intro s hs; rw [build_spans_nil] at hs; exact absurd hs (by simp)
  | x :: xs =>
    intro s hs
    rw [build_spans_cons] at hs
    rcases List.mem_cons.mp hs with rfl | hs
    · refine ⟨x, _, mkSpan_lines .., ?_⟩
      rw [mkSpan_lines]
      intro y hy
      rcases List.mem_cons.mp hy with rfl | hy
      · simp only [Bool.and_eq_true]
        constructor
        · simp [Line.same_quoting_layer]
        · cases y <;> rfl
      · have := List.mem_takeWhile_imp hy
        simpa using this
    · exact build_spans_homogeneous
        (xs.dropWhile fun y => x.same_quoting_layer y && x.same_variant y) s hs
termination_by lines.length
decreasing_by
  have := List.Sublist.length_le
    (List.dropWhile_sublist (fun y => x.same_quoting_layer y && x.same_variant y)
      (l := xs))
  simp only [List.length_cons]
  omega

theorem dropWhile_head_false (pr : Line → Bool) (l : List Line) (y : Line)
    (ys : List Line) (h : l.dropWhile pr = y :: ys) : pr y = false := by
  have := List.head?_dropWhile_not pr l
  rw [h] at this
  simpa using this

theorem build_spans_boundary (lines : List Line) :
    (build_spans lines).Chain'
      (fun s t => ((spanFirst s).same_quoting_layer (spanFirst t) &&
        (spanFirst s).same_variant (spanFirst t)) = false) := by
  match lines with
  | [] => rw [build_spans_nil]; exact List.chain'_nil
  | x :: xs =>
    rw [build_spans_cons]
    rcases hdrop : xs.dropWhile
        (fun y => x.same_quoting_layer y && x.same_variant y) with _ | ⟨z, zs⟩
    · rw [build_spans_nil]
      simp
    · have hrest := build_spans_boundary (z :: zs)
      rw [build_spans_cons] at hrest ⊢
      refine List.chain'_cons.mpr ⟨?_, hrest⟩
      have hz : (x.same_quoting_layer z && x.same_variant z) = false :=
        dropWhile_head_false _ xs z zs hdrop
      have h1 : spanFirst (mkSpan x
          (x :: xs.takeWhile fun y => x.same_quoting_layer y && x.same_variant y)
          ((xs.takeWhile fun y => x.same_quoting_layer y && x.same_variant y).getLastD x)) = x := by
        rw [spanFirst, mkSpan_lines]
        rfl
      have h2 : spanFirst (mkSpan z
          (z :: zs.takeWhile fun y => z.same_quoting_layer y && z.same_variant y)
          ((zs.takeWhile fun y => z.same_quoting_layer y && z.same_variant y).getLastD z)) = z := by
        rw [spanFirst, mkSpan_lines]
        rfl
      rw [h1, h2]
      exact hz
termination_by lines.length
decreasing_by
  have := List.Sublist.length_le
    (List.dropWhile_sublist (fun y => x.same_quoting_layer y && x.same_variant y)
      (l := xs))
  rw [hdrop] at this
  simp only [List.length_cons] at this ⊢
  omega

/-- Claim C3: `build_spans` partitions the record sequence exactly — the
concatenation of the spans' record slices is the input, every span's slice is
a nonempty run agreeing with its first record in quoting layer and variant,
and the first records of consecutive spans disagree in quoting layer or
variant (so each run is maximal). -/
theorem build_spans_partition :
    (∀ lines : List Line, ((build_spans lines).map Span.lines).flatten = lines) ∧
      (∀ (lines : List Line) (s : Span), s ∈ build_spans lines →
        ∃ f rest, Span.lines s = f :: rest ∧
          ∀ y ∈ Span.lines s,
            (f.same_quoting_layer y && f.same_variant y) = true) ∧
      ∀ lines : List Line, (build_spans lines).Chain'
        (fun s t => ((spanFirst s).same_quoting_layer (spanFirst t) &&
          (spanFirst s).same_variant (spanFirst t)) = false) :=
  ⟨build_spans_flatten, fun lines => build_spans_homogeneous lines,
    build_spans_boundary⟩

/-- Witness for claim C3: the single-record input produces one span holding
exactly that record. -/
theorem build_spans_partition_witness :
    ∃ f rest, Span.lines (Span.Text 0 2 0 [Line.Text 0 2 0 [' ']]) = f :: rest ∧
      ∀ y ∈ Span.lines (Span.Text 0 2 0 [Line.Text 0 2 0 [' ']]),
        (f.same_quoting_layer y && f.same_variant y) = true :=
  build_spans_partition.2.1 [Line.Text 0 2 0 [' ']]
    (Span.Text 0 2 0 [Line.Text 0 2 0 [' ']])
    (by rw [build_spans_cons]; simp [mkSpan, Line.get_end_offset,
      Line.offset, Line.length])

end Kmailight
